import Mathlib

/-!
# Verification of the stocking market-tracker core

Shallow embedding of the core data structures and detector logic of the
`stocking` repository (Rust), together with theorems checking the
natural-language specification against the code.

Modelling conventions:
* `i64` values are modelled as `Int` (no overflow is relevant to the
  verified properties);
* `f64` values (change rates, averaged volume deltas) are modelled as `ℚ`
  with exact arithmetic; `f64::EPSILON = 2^(-52)` is the constant `eps`;
* `NaiveDateTime` timestamps are modelled as `Int` minutes, so that
  `Duration::minutes(10)` becomes the integer `10`;
* `Vec<T>` is `List T`; `HashMap<K, V>` is an association list
  `List (K × V)` whose reachable states have pairwise-distinct keys;
* building a `String` by successive `push` calls is modelled as appending
  to a `List Char`, converted with `String.mk` at the end.
-/

namespace Stocking

/-- Market session state (`naver/model.rs`, `MarketState`). -/
inductive MarketState where
  | PreOpen
  | Close
  | Open
deriving DecidableEq, Repr

/-- One historical tick (`market.rs`, `struct Quote`).  `time` is minutes
since some epoch, `trading_vol_move` is the incremental volume delta. -/
structure Quote where
  time : Int
  value : Int
  trading_volume : Int
  trading_vol_move : Int
deriving DecidableEq, Repr

/-- `Graph::MAX_QUOTES` (`market.rs` line 158). -/
def maxQuotes : Nat := 1024

/-- Effect of `binary_search_by_key` followed by `insert`/replace on a
time-sorted quote list (`Graph::update`, `market.rs` lines 164-169):
an exact `time` match replaces the stored quote, otherwise the quote is
inserted at its sorted position. -/
def graphInsert (q : Quote) : List Quote → List Quote
  | [] => [q]
  | x :: xs =>
    if q.time < x.time then q :: x :: xs
    else if q.time = x.time then q :: xs
    else x :: graphInsert q xs

/-- `Graph::update` (`market.rs` lines 164-174): upsert by time, then if
the length exceeds `MAX_QUOTES` remove the front (oldest) element. -/
def Graph.update (g : List Quote) (q : Quote) : List Quote :=
  let g' := graphInsert q g
  if maxQuotes < g'.length then g'.tail else g'

/-- Folding `Graph::update` over a sequence of quotes starting from the
empty graph produced by `Graph::new`. -/
def updateAll (qs : List Quote) : List Quote :=
  qs.foldl Graph.update []

/-- `Graph::latest_time` (`market.rs` lines 180-182): time of the last
stored quote. -/
def latestTime (g : List Quote) : Option Int :=
  g.getLast?.map Quote.time

/-- `Graph::avg_trading_vol_move` (`market.rs` lines 184-197): `None` if
`cnt == 0` or fewer than `offset + cnt` quotes are stored, otherwise the
sum of `trading_vol_move` over `cnt` quotes, counted from the most recent
backwards after skipping `offset`, divided by `cnt`. -/
def avgTradingVolMove (g : List Quote) (offset cnt : Nat) : Option ℚ :=
  if cnt = 0 ∨ g.length < offset + cnt then none
  else
    some (((((g.reverse.drop offset).take cnt).map
      Quote.trading_vol_move).sum : Int) / (cnt : ℚ))

/-! ## Alarm registry (`alarm.rs`) -/

/-- `StockAlarm.alarms : HashMap<String, Vec<i64>>` as an association
list. -/
def StockAlarm := List (String × List Int)

/-- Effect of `Vec::binary_search` + `insert` on a sorted vector
(`set_alarm`, `alarm.rs` lines 17-22): insert at the sorted position,
keep the vector unchanged when the value is already present. -/
def insertSorted (v : Int) : List Int → List Int
  | [] => [v]
  | x :: xs =>
    if v < x then v :: x :: xs
    else if v = x then x :: xs
    else x :: insertSorted v xs

/-- `StockAlarm::set_alarm` (`alarm.rs` lines 14-24): modify the entry of
`code` when present, otherwise append a fresh entry `[target_value]`. -/
def setAlarm : StockAlarm → String → Int → StockAlarm
  | [], code, v => [(code, [v])]
  | (c, vs) :: rest, code, v =>
    if c = code then (c, insertSorted v vs) :: rest
    else (c, vs) :: setAlarm rest code v

/-- `StockAlarm::remove_alarm` (`alarm.rs` lines 26-39).  On a sorted
vector, `binary_search` succeeds exactly on membership, so the hit test is
modelled by `∈` and removal of the found index by `List.erase`.  When the
vector becomes empty the whole entry is removed.  Returns whether a
removal happened, paired with the new registry. -/
def removeAlarm : StockAlarm → String → Int → Bool × StockAlarm
  | [], _, _ => (false, [])
  | (c, vs) :: rest, code, v =>
    if c = code then
      if v ∈ vs then
        let vs' := vs.erase v
        if vs' = [] then (true, rest) else (true, (c, vs') :: rest)
      else (false, (c, vs) :: rest)
    else
      let r := removeAlarm rest code v
      (r.1, (c, vs) :: r.2)

/-- `StockAlarm::get_alarms` (`alarm.rs` lines 45-47). -/
def getAlarms (a : StockAlarm) (code : String) : Option (List Int) :=
  match a with
  | [] => none
  | (c, vs) :: rest => if c = code then some vs else getAlarms rest code

/-- Replay a sequence of `set_alarm(code, price)` calls on the empty
registry produced by `StockAlarm::new`. -/
def applyAlarms (ops : List (String × Int)) : StockAlarm :=
  ops.foldl (fun a p => setAlarm a p.1 p.2) []

/-- Well-formedness of a reachable alarm registry: the codes are
pairwise distinct (they are `HashMap` keys) and every stored vector is
strictly sorted (this is what justifies the `binary_search` model). -/
def AlarmWF (a : StockAlarm) : Prop :=
  (a.map Prod.fst).Nodup ∧
  ∀ code vs, getAlarms a code = some vs → List.Sorted (· < ·) vs

/-! ## Alarm crossing check (`trader.rs`) -/

/-- The alarm crossing condition of the poller (`trader.rs` lines
120-124): fires when the target lies between the previous and the new
value, in either direction, endpoints included. -/
def alarmCrossed (prev target now : Int) : Bool :=
  (prev ≤ target ∧ target ≤ now) ∨ (prev ≥ target ∧ target ≥ now)

/-- The Graph invariant stated in the specification: quotes strictly
ascending by time (hence no duplicate timestamps) and at most
`MAX_QUOTES` of them. -/
def GraphInv (g : List Quote) : Prop :=
  List.Sorted (· < ·) (g.map Quote.time) ∧ g.length ≤ maxQuotes

/-- A full graph: `maxQuotes` quotes with times `0, 1, ..., 1023`. -/
def bigGraph : List Quote :=
  (List.range maxQuotes).map fun i : Nat => ⟨(i : Int), 0, 0, 0⟩

/-- `maxQuotes + 1` quotes with distinct times `0, 1, ..., 1024`. -/
def bigQuotes : List Quote :=
  (List.range (maxQuotes + 1)).map fun i : Nat => ⟨(i : Int), 0, 0, 0⟩

/-! ## Instrument registry (`market.rs`) -/

/-- `ShareKind` (`market.rs` lines 8-11). -/
inductive ShareKind where
  | Index
  | Stock
deriving DecidableEq, Repr

/-- `naver::model::Index`: the fields used by the registry.  `change_rate`
is an `f64` percent, modelled as `ℚ`. -/
structure Index where
  state : MarketState
  now_value : Int
  change_value : Int
  change_rate : ℚ
  trading_volume : Int

/-- `naver::model::Stock`: the fields used by the registry.
`change_type`, `change_value` and `change_rate` are the raw parsed fields;
the sign is recovered by `Stock.changeValue` / `Stock.changeRate`. -/
structure Stock where
  name : String
  state : MarketState
  now_value : Int
  change_type : String
  change_value : Int
  change_rate : ℚ
  trading_volume : Int

/-- `Stock::change_value()` (`naver/model.rs`): negates the raw absolute
change when the change type is "4" (하한가) or "5" (하락). -/
def Stock.changeValue (s : Stock) : Int :=
  if s.change_type = "4" ∨ s.change_type = "5" then -s.change_value
  else s.change_value

/-- `Stock::change_rate()` (`naver/model.rs`): same sign rule as
`Stock::change_value()`. -/
def Stock.changeRate (s : Stock) : ℚ :=
  if s.change_type = "4" ∨ s.change_type = "5" then -s.change_rate
  else s.change_rate

/-- `market.rs` `struct Share`: snapshot fields plus the tick graph. -/
structure Share where
  kind : ShareKind
  name : String
  state : MarketState
  value : Int
  change_value : Int
  change_rate : ℚ
  trading_volume : Int
  graph : List Quote

/-- `Market.shares : HashMap<String, Share>` as an association list. -/
def Market := List (String × Share)

/-- `Market::get_share` (`market.rs` lines 132-134). -/
def Market.getShare (m : Market) (code : String) : Option Share :=
  match m with
  | [] => none
  | (c, sh) :: rest => if c = code then some sh else Market.getShare rest code

/-- `Market::add_or_update_index` (`market.rs` lines 46-70): when the code
is present overwrite the snapshot fields (the name is set to the code),
keeping `kind` and `graph`; otherwise insert a fresh `Index` share with an
empty graph (`Graph::new`). -/
def Market.addOrUpdateIndex : Market → String → Index → Market
  | [], code, ix =>
    [(code, ⟨ShareKind.Index, code, ix.state, ix.now_value, ix.change_value,
      ix.change_rate, ix.trading_volume, []⟩)]
  | (c, sh) :: rest, code, ix =>
    if c = code then
      (c, { sh with
              name := code
              state := ix.state
              value := ix.now_value
              change_value := ix.change_value
              change_rate := ix.change_rate
              trading_volume := ix.trading_volume }) :: rest
    else (c, sh) :: Market.addOrUpdateIndex rest code ix

/-- `Market::add_or_update_stock` (`market.rs` lines 72-96): when the code
is present overwrite the snapshot fields from the stock, keeping `kind`
and `graph`; otherwise insert a fresh `Stock` share with an empty graph
(`Graph::new`). -/
def Market.addOrUpdateStock : Market → String → Stock → Market
  | [], code, st =>
    [(code, ⟨ShareKind.Stock, st.name, st.state, st.now_value,
      st.changeValue, st.changeRate, st.trading_volume, []⟩)]
  | (c, sh) :: rest, code, st =>
    if c = code then
      (c, { sh with
              name := st.name
              state := st.state
              value := st.now_value
              change_value := st.changeValue
              change_rate := st.changeRate
              trading_volume := st.trading_volume }) :: rest
    else (c, sh) :: Market.addOrUpdateStock rest code st

/-- A 21-quote graph whose last volume delta (4000) spikes above the
trailing average (1); used to exercise the volume-spike detector. -/
def spikeGraph : List Quote :=
  ((List.range 20).map fun i : Nat => ⟨(i : Int) + 1, 0, 0, 1⟩) ++
    [⟨21, 0, 0, 4000⟩]

/-- A 3-quote graph used to exercise `avg_trading_vol_move`. -/
def demoGraph : List Quote :=
  [⟨1, 0, 0, 5⟩, ⟨2, 0, 0, 7⟩, ⟨3, 0, 0, 9⟩]

/-- A sample registry entry, used to exercise the registry theorems. -/
def sampleShare : Share :=
  ⟨ShareKind.Stock, "old", MarketState.Close, 1, 2, 3, 4,
    [⟨100, 7, 8, 9⟩]⟩

/-- A sample stock snapshot. -/
def sampleStock : Stock :=
  ⟨"samsung", MarketState.Open, 50, "2", 5, 7, 20⟩

/-- A sample index snapshot. -/
def sampleIndex : Index :=
  ⟨MarketState.Open, 300, -3, -1, 9⟩

/-! ## Rate-breakout detector (`trader.rs`, `notify_change_rate`) -/

/-- `f64::EPSILON = 2^(-52)`, used in the band comparison. -/
def eps : ℚ := 1 / 2 ^ 52

/-- The `limit_range` constant of `notify_change_rate` (`trader.rs`
line 327). -/
def limitRange : ℚ := 1

/-- Rust `f64::round`: nearest integer, halves rounded away from zero. -/
def roundRat (q : ℚ) : Int :=
  if 0 ≤ q then ⌊q + 1 / 2⌋ else ⌈q - 1 / 2⌉

/-- The per-instrument detector memory of `notify_change_rate`: the
remembered previous market state (`prev_states`) and the current band
upper bound (`rate_limits`), both absent before the first observation. -/
structure RateState where
  prev_state : Option MarketState
  rate_limit : Option ℚ
deriving DecidableEq

/-- One iteration of the `notify_change_rate` loop body for a single
stock (`trader.rs` lines 370-434).  Returns whether a breakout
notification was sent, paired with the updated detector memory. -/
def rateStep (st : RateState) (state : MarketState) (change_rate : ℚ) :
    Bool × RateState :=
  -- prev_states.entry(code).or_insert(state); reset the band on a
  -- transition into Open.
  let prev := st.prev_state.getD state
  let limit0 : Option ℚ :=
    if prev ≠ state ∧ state = MarketState.Open then some limitRange
    else st.rate_limit
  if state ≠ MarketState.Open then (false, ⟨some state, limit0⟩)
  else
    match limit0 with
    | some upper =>
      let lower := upper - limitRange * 2
      if change_rate > upper - eps ∨ change_rate < lower + eps then
        let newUpper := (roundRat (change_rate / limitRange) : ℚ) * limitRange + limitRange
        (true, ⟨some state, some newUpper⟩)
      else (false, ⟨some state, some upper⟩)
    | none =>
      -- a stock added while the market is already open: initialise the
      -- band from the current rate, without notifying.
      let newUpper := (roundRat (change_rate / limitRange) : ℚ) * limitRange + limitRange
      (false, ⟨some state, some newUpper⟩)

/-! ## Volume-spike detector (`trader.rs`, `notify_high_trading_vol`) -/

/-- One iteration of the `notify_high_trading_vol` loop body for a single
stock (`trader.rs` lines 477-550).  `prevN` is the `prev_noti` memory for
this stock: last notified tick time and spike scale.  The stock's data is
only read when its state is `Open` (the `.filter` on line 482); `time`,
`curr` and `avg` must all be available (the `Some` patterns on lines
501-503).  Returns whether a notification was sent, paired with the
updated memory. -/
def volStep (prevN : Option (Int × ℚ)) (state : MarketState)
    (g : List Quote) : Bool × Option (Int × ℚ) :=
  if state ≠ MarketState.Open then (false, prevN)
  else
    match latestTime g, avgTradingVolMove g 0 1, avgTradingVolMove g 1 20 with
    | some time, some currMove, some avgMove =>
      if currMove > 3000 ∧ currMove > avgMove * 5 then
        let scale := currMove / avgMove
        let cond : Option Bool := prevN.map (fun p =>
          p.1 ≠ time ∧ (scale > p.2 ∨ time - p.1 > 10))
        let newNoti := cond = none ∨ cond = some true
        if newNoti then (true, some (time, scale)) else (false, prevN)
      else (false, prevN)
    | _, _, _ => (false, prevN)

/-! ## Value formatting (`util.rs`, `format_value`) -/

/-- The first loop of `format_value` (`util.rs` lines 25-28): divide
`base` by 10, counting in `digit`, while `base > integer`.  Starting from
`base = 10^18` the loop runs at most 19 times (after 19 divisions `base`
is 0 and `0 > integer` is false), so fuel 19 makes the recursion exact. -/
def baseLoop (integer : Nat) : Nat → Nat → Nat → Nat × Nat
  | 0, base, digit => (base, digit)
  | f + 1, base, digit =>
    if integer < base then baseLoop integer f (base / 10) (digit + 1)
    else (base, digit)

/-- The digit-emitting loop of `format_value` (`util.rs` lines 30-39):
while `base >= 10`, push a separating comma when the accumulated string is
non-empty, does not start with the minus sign, and `digit % 3 == 1`; then
push the digit `integer / base` and reduce `integer` modulo `base`.
Starting from `base ≤ 10^18` at most 18 iterations can run, so fuel 18
makes the recursion exact.  Returns the accumulated characters and the
remaining `integer`. -/
def digitsLoop : Nat → Nat → Nat → Nat → List Char → List Char × Nat
  | 0, _, integer, _, s => (s, integer)
  | f + 1, base, integer, digit, s =>
    if 10 ≤ base then
      let s1 := if s ≠ [] ∧ s.head? ≠ some '-' ∧ digit % 3 = 1
        then s ++ [','] else s
      let s2 := s1 ++ [Char.ofNat (integer / base + 48)]
      digitsLoop f (base / 10) (integer % base) (digit + 1) s2
    else (s, integer)

/-- Decimal digits of `n`, most significant first (the digits printed by
`format!`).  Fuel `f` is exact for every `n < 10^(f+1)`. -/
def natDigitsAux : Nat → Nat → List Char
  | 0, n => [Char.ofNat (n % 10 + 48)]
  | f + 1, n =>
    if n < 10 then [Char.ofNat (n + 48)]
    else natDigitsAux f (n / 10) ++ [Char.ofNat (n % 10 + 48)]

/-- `format_value` (`util.rs` lines 5-49).  A leading minus sign is pushed
for negative input and the value made non-negative; the integer part of
`|val| / 10^radix` is printed by `digitsLoop` plus one final digit; for
`radix > 0` the fractional part `|val| % 10^radix` is appended after a
dot, zero-padded on the left to width `radix`
(`format!("{:01$}", val % denominator, radix as usize)`). -/
def formatValue (val : Int) (radix : Int) : String :=
  let s0 : List Char := if val < 0 then ['-'] else []
  let v : Int := if val < 0 then -val else val
  let denominator : Int := 10 ^ radix.toNat
  let integer : Nat := (v / denominator).toNat
  let bd := baseLoop integer 19 (10 ^ 18) 0
  let r := digitsLoop 18 bd.1 integer bd.2 s0
  let s1 := r.1 ++ [Char.ofNat (r.2 + 48)]
  let s2 :=
    if 0 < radix then
      let m : Nat := (v % denominator).toNat
      let digits := natDigitsAux radix.toNat m
      s1 ++ ['.'] ++ List.replicate (radix.toNat - digits.length) '0' ++ digits
    else s1
  String.mk s2

/-! # Helper lemmas -/

theorem mem_insertSorted (x v : Int) (l : List Int) :
    x ∈ insertSorted v l ↔ x = v ∨ x ∈ l := by
  induction l with
  | nil => simp [insertSorted]
  | cons y ys ih =>
    by_cases h1 : v < y
    · simp [insertSorted, h1]
    · by_cases h2 : v = y
      · subst h2
        have hred : insertSorted v (v :: ys) = v :: ys := by
          simp [insertSorted]
        rw [hred]
        simp only [List.mem_cons]
        tauto
      · simp only [insertSorted, h1, h2, if_false, List.mem_cons, ih]
        tauto

theorem sorted_insertSorted (v : Int) (l : List Int)
    (h : List.Sorted (· < ·) l) :
    List.Sorted (· < ·) (insertSorted v l) := by
  induction l with
  | nil => simp [insertSorted]
  | cons y ys ih =>
    rw [List.sorted_cons] at h
    by_cases h1 : v < y
    · simp only [insertSorted, h1, if_pos]
      rw [List.sorted_cons]
      refine ⟨?_, List.sorted_cons.mpr h⟩
      intro b hb
      rcases List.mem_cons.mp hb with hb | hb
      · exact hb ▸ h1
      · exact lt_trans h1 (h.1 b hb)
    · by_cases h2 : v = y
      · simpa [insertSorted, h1, h2] using List.sorted_cons.mpr h
      · simp only [insertSorted, h1, h2, if_false]
        rw [List.sorted_cons]
        refine ⟨?_, ih h.2⟩
        intro b hb
        rcases (mem_insertSorted b v ys).mp hb with hb | hb
        · subst hb
          omega
        · exact h.1 b hb

theorem insertSorted_of_mem (v : Int) (l : List Int)
    (hs : List.Sorted (· < ·) l) (hm : v ∈ l) :
    insertSorted v l = l := by
  induction l with
  | nil => cases hm
  | cons y ys ih =>
    rw [List.sorted_cons] at hs
    rcases List.mem_cons.mp hm with h | h
    · subst h
      simp [insertSorted]
    · have hy : y < v := hs.1 v h
      have h1 : ¬v < y := by omega
      have h2 : ¬v = y := by omega
      simp [insertSorted, h1, h2, ih hs.2 h]

theorem length_insertSorted_of_not_mem (v : Int) (l : List Int)
    (hm : v ∉ l) :
    (insertSorted v l).length = l.length + 1 := by
  induction l with
  | nil => simp [insertSorted]
  | cons y ys ih =>
    simp only [List.mem_cons, not_or] at hm
    by_cases h1 : v < y
    · simp [insertSorted, h1]
    · simp [insertSorted, h1, hm.1, ih hm.2]

theorem insertSorted_perm_of_not_mem (v : Int) (l : List Int)
    (hm : v ∉ l) :
    List.Perm (insertSorted v l) (v :: l) := by
  induction l with
  | nil => simp [insertSorted]
  | cons y ys ih =>
    simp only [List.mem_cons, not_or] at hm
    by_cases h1 : v < y
    · simp [insertSorted, h1]
    · simp only [insertSorted, h1, hm.1, if_false]
      exact (List.Perm.cons y (ih hm.2)).trans (List.Perm.swap v y ys)

theorem char_ofNat_digit_ne_comma (n : Nat) : Char.ofNat (n + 48) ≠ ',' := by
  intro h
  rw [Char.ofNat] at h
  by_cases hv : (n + 48).isValidChar
  · rw [dif_pos hv] at h
    have hval := congrArg (fun c => c.val.toNat) h
    simp [Char.ofNatAux, UInt32.toNat, BitVec.toNat_ofNatLt] at hval
  · rw [dif_neg hv] at h
    have hval := congrArg (fun c => c.val.toNat) h
    simp [UInt32.toNat, BitVec.toNat_ofNatLt] at hval

theorem digitsLoop_no_comma (f : Nat) :
    ∀ (base integer digit : Nat) (s : List Char),
    s.head? = some '-' → ',' ∉ s →
    ',' ∉ (digitsLoop f base integer digit s).1 ∧
    (digitsLoop f base integer digit s).1.head? = some '-' := by
  induction f with
  | zero => intro base integer digit s hs hns; exact ⟨hns, hs⟩
  | succ f ih =>
    intro base integer digit s hs hns
    by_cases hb : 10 ≤ base
    · have hcond : ¬(s ≠ [] ∧ s.head? ≠ some '-' ∧ digit % 3 = 1) := by
        intro hcontra
        exact hcontra.2.1 hs
      simp only [digitsLoop, if_pos hb, if_neg hcond]
      apply ih
      · rw [List.head?_append, hs]
        rfl
      · intro hmem
        rcases List.mem_append.mp hmem with h | h
        · exact hns h
        · rw [List.mem_singleton] at h
          exact char_ofNat_digit_ne_comma _ h.symm
    · simp only [digitsLoop, if_neg hb]
      exact ⟨hns, hs⟩

theorem natDigitsAux_no_comma (f : Nat) :
    ∀ n : Nat, ',' ∉ natDigitsAux f n := by
  induction f with
  | zero =>
    intro n hmem
    rw [natDigitsAux, List.mem_singleton] at hmem
    exact char_ofNat_digit_ne_comma _ hmem.symm
  | succ f ih =>
    intro n hmem
    rw [natDigitsAux] at hmem
    by_cases h10 : n < 10
    · rw [if_pos h10, List.mem_singleton] at hmem
      exact char_ofNat_digit_ne_comma _ hmem.symm
    · rw [if_neg h10] at hmem
      rcases List.mem_append.mp hmem with h | h
      · exact ih _ h
      · rw [List.mem_singleton] at h
        exact char_ofNat_digit_ne_comma _ h.symm

theorem map_time_graphInsert (q : Quote) (g : List Quote) :
    (graphInsert q g).map Quote.time = insertSorted q.time (g.map Quote.time) := by
  induction g with
  | nil => simp [graphInsert, insertSorted]
  | cons x xs ih =>
    by_cases h1 : q.time < x.time
    · simp [graphInsert, insertSorted, h1]
    · by_cases h2 : q.time = x.time
      · simp [graphInsert, insertSorted, h1, h2]
      · simp [graphInsert, insertSorted, h1, h2, ih]

theorem self_mem_graphInsert (q : Quote) (g : List Quote) :
    q ∈ graphInsert q g := by
  induction g with
  | nil => simp [graphInsert]
  | cons x xs ih =>
    by_cases h1 : q.time < x.time
    · simp [graphInsert, h1]
    · by_cases h2 : q.time = x.time
      · simp [graphInsert, h1, h2]
      · simp only [graphInsert, h1, h2, if_false, List.mem_cons]
        exact Or.inr ih

theorem length_graphInsert_fresh (q : Quote) (g : List Quote)
    (hm : q.time ∉ g.map Quote.time) :
    (graphInsert q g).length = g.length + 1 := by
  have h1 : (graphInsert q g).length
      = ((graphInsert q g).map Quote.time).length := (List.length_map _ _).symm
  rw [h1, map_time_graphInsert, length_insertSorted_of_not_mem _ _ hm,
    List.length_map]

theorem map_time_graphInsert_mem (q : Quote) (g : List Quote)
    (hs : List.Sorted (· < ·) (g.map Quote.time))
    (hm : q.time ∈ g.map Quote.time) :
    (graphInsert q g).map Quote.time = g.map Quote.time := by
  rw [map_time_graphInsert]
  exact insertSorted_of_mem _ _ hs hm

theorem update_eq_of_le (g : List Quote) (q : Quote)
    (h : (graphInsert q g).length ≤ maxQuotes) :
    Graph.update g q = graphInsert q g := by
  simp only [Graph.update]
  rw [if_neg (by omega)]

theorem update_eq_of_gt (g : List Quote) (q : Quote)
    (h : maxQuotes < (graphInsert q g).length) :
    Graph.update g q = (graphInsert q g).tail := by
  simp only [Graph.update]
  rw [if_pos h]

theorem sorted_graphInsert (q : Quote) (g : List Quote)
    (hs : List.Sorted (· < ·) (g.map Quote.time)) :
    List.Sorted (· < ·) ((graphInsert q g).map Quote.time) := by
  rw [map_time_graphInsert]
  exact sorted_insertSorted _ _ hs

theorem graphInv_update (g : List Quote) (q : Quote) (h : GraphInv g) :
    GraphInv (Graph.update g q) := by
  obtain ⟨hs, hl⟩ := h
  by_cases hm : q.time ∈ g.map Quote.time
  · have hmap : (graphInsert q g).map Quote.time = g.map Quote.time :=
      map_time_graphInsert_mem q g hs hm
    have hlen : (graphInsert q g).length = g.length := by
      have := congrArg List.length hmap
      rwa [List.length_map, List.length_map] at this
    rw [update_eq_of_le g q (by omega)]
    exact ⟨hmap ▸ hs, by omega⟩
  · have hlen := length_graphInsert_fresh q g hm
    by_cases hfull : g.length = maxQuotes
    · rw [update_eq_of_gt g q (by omega)]
      constructor
      · rw [List.map_tail]
        exact (sorted_graphInsert q g hs).tail
      · rw [List.length_tail]
        omega
    · rw [update_eq_of_le g q (by omega)]
      exact ⟨sorted_graphInsert q g hs, by omega⟩

theorem graphInv_foldl (qs : List Quote) :
    ∀ a : List Quote, GraphInv a → GraphInv (qs.foldl Graph.update a) := by
  induction qs with
  | nil => intro a ha; exact ha
  | cons q qs' ih =>
    intro a ha
    exact ih _ (graphInv_update a q ha)

theorem foldl_insertSorted_perm (ts : List Int) :
    ∀ acc : List Int, (acc ++ ts).Nodup →
    List.Perm (ts.foldl (fun a t => insertSorted t a) acc) (acc ++ ts) := by
  induction ts with
  | nil => intro acc h; simp
  | cons t ts' ih =>
    intro acc h
    simp only [List.foldl_cons]
    have hnd : (t :: (acc ++ ts')).Nodup := (List.perm_middle.nodup_iff).mp h
    have ht : t ∉ acc := fun hmem =>
      (List.nodup_cons.mp hnd).1 (List.mem_append.mpr (Or.inl hmem))
    have hpins : List.Perm (insertSorted t acc) (t :: acc) :=
      insertSorted_perm_of_not_mem t acc ht
    have hperm1 : List.Perm (insertSorted t acc ++ ts')
        ((t :: acc) ++ ts') := hpins.append_right ts'
    have hnd1 : (insertSorted t acc ++ ts').Nodup :=
      (hperm1.nodup_iff).mpr hnd
    have hmain := ih (insertSorted t acc) hnd1
    exact hmain.trans (hperm1.trans List.perm_middle.symm)

theorem updateAll_no_evict (qs : List Quote) :
    ∀ a : List Quote, GraphInv a → a.length + qs.length ≤ maxQuotes →
    (a.map Quote.time ++ qs.map Quote.time).Nodup →
    (qs.foldl Graph.update a).map Quote.time =
      (qs.map Quote.time).foldl (fun acc t => insertSorted t acc)
        (a.map Quote.time) := by
  induction qs with
  | nil => intro a _ _ _; rfl
  | cons q qs' ih =>
    intro a ha hlen hnd
    rw [List.length_cons] at hlen
    simp only [List.foldl_cons, List.map_cons]
    have hfresh : q.time ∉ a.map Quote.time := by
      intro hmem
      exact (List.disjoint_of_nodup_append hnd) hmem (by simp)
    have hlw : (graphInsert q a).length = a.length + 1 :=
      length_graphInsert_fresh q a hfresh
    have hupd : Graph.update a q = graphInsert q a :=
      update_eq_of_le a q (by omega)
    have hmap : (Graph.update a q).map Quote.time
        = insertSorted q.time (a.map Quote.time) := by
      rw [hupd, map_time_graphInsert]
    have hInvA : GraphInv (Graph.update a q) := graphInv_update a q ha
    have hperm : List.Perm ((Graph.update a q).map Quote.time)
        (q.time :: a.map Quote.time) := by
      rw [hmap]
      exact insertSorted_perm_of_not_mem _ _ hfresh
    have hndA : ((Graph.update a q).map Quote.time
        ++ qs'.map Quote.time).Nodup := by
      apply ((hperm.append_right _).nodup_iff).mpr
      exact (List.perm_middle.nodup_iff).mp hnd
    have hlenA : (Graph.update a q).length + qs'.length ≤ maxQuotes := by
      rw [hupd, hlw]
      omega
    have hrec := ih (Graph.update a q) hInvA hlenA hndA
    rw [hrec, hmap]

theorem update_overflow_keeps_recent (qs : List Quote)
    (hnd : (qs.map Quote.time).Nodup) (hlen : qs.length = maxQuotes + 1) :
    (updateAll qs).length = maxQuotes ∧
    ∀ t : Int, t ∈ (updateAll qs).map Quote.time ↔
      (t ∈ qs.map Quote.time ∧ ∃ u ∈ qs.map Quote.time, u < t) := by
  have hne : qs ≠ [] := by
    intro h
    rw [h] at hlen
    simp [maxQuotes] at hlen
  set qs1 := qs.dropLast with hqs1
  set z := qs.getLast hne with hzdef
  have hsplit : qs1 ++ [z] = qs := List.dropLast_append_getLast hne
  have hlen1 : qs1.length = maxQuotes := by
    rw [hqs1, List.length_dropLast, hlen]
    omega
  have hts : qs.map Quote.time = qs1.map Quote.time ++ [z.time] := by
    conv_lhs => rw [← hsplit]
    simp
  have hndt : (qs1.map Quote.time ++ [z.time]).Nodup := hts ▸ hnd
  have hznot : z.time ∉ qs1.map Quote.time := by
    intro hmem
    exact (List.disjoint_of_nodup_append hndt) hmem (by simp)
  have hnd1 : (qs1.map Quote.time).Nodup := (List.nodup_append.mp hndt).1
  have hInvNil : GraphInv ([] : List Quote) := by
    constructor
    · exact List.sorted_nil
    · simp [maxQuotes]
  set A1 := qs1.foldl Graph.update [] with hA1
  have hInv1 : GraphInv A1 := graphInv_foldl qs1 [] hInvNil
  have hmap1 : A1.map Quote.time =
      (qs1.map Quote.time).foldl (fun acc t => insertSorted t acc) [] := by
    apply updateAll_no_evict qs1 [] hInvNil
    · simp [hlen1]
    · simpa using hnd1
  have hperm1 : List.Perm
      ((qs1.map Quote.time).foldl (fun acc t => insertSorted t acc) [])
      (qs1.map Quote.time) := by
    have h0 := foldl_insertSorted_perm (qs1.map Quote.time) []
      (by simpa using hnd1)
    simpa using h0
  have hlenA : A1.length = maxQuotes := by
    have h1 : (A1.map Quote.time).length = (qs1.map Quote.time).length := by
      rw [hmap1]
      exact hperm1.length_eq
    rw [List.length_map, List.length_map] at h1
    rw [h1, hlen1]
  have hzA : z.time ∉ A1.map Quote.time := by
    intro hmem
    rw [hmap1] at hmem
    exact hznot (hperm1.mem_iff.mp hmem)
  have hgi : (graphInsert z A1).length = maxQuotes + 1 := by
    rw [length_graphInsert_fresh z A1 hzA, hlenA]
  have hua : updateAll qs = (graphInsert z A1).tail := by
    rw [updateAll, ← hsplit, List.foldl_append]
    simp only [List.foldl_cons, List.foldl_nil]
    exact update_eq_of_gt A1 z (by omega)
  set S := (graphInsert z A1).map Quote.time with hS
  have hSsorted : List.Sorted (· < ·) S := sorted_graphInsert z A1 hInv1.1
  have hSlen : S.length = maxQuotes + 1 := by
    rw [hS, List.length_map, hgi]
  have hSperm : List.Perm S (qs.map Quote.time) := by
    rw [hS, map_time_graphInsert]
    have p1 : List.Perm (insertSorted z.time (A1.map Quote.time))
        (z.time :: A1.map Quote.time) :=
      insertSorted_perm_of_not_mem _ _ hzA
    have p2 : List.Perm (z.time :: A1.map Quote.time)
        (z.time :: qs1.map Quote.time) := by
      apply List.Perm.cons
      rw [hmap1]
      exact hperm1
    have p3 : List.Perm (qs1.map Quote.time ++ [z.time])
        (z.time :: qs1.map Quote.time) := by
      have h0 := @List.perm_middle Int z.time (qs1.map Quote.time) []
      simp only [List.append_nil] at h0
      exact h0
    exact (p1.trans p2).trans (hts ▸ p3.symm)
  have hmt : (updateAll qs).map Quote.time = S.tail := by
    rw [hua, List.map_tail, hS]
  constructor
  · have h1 : ((updateAll qs).map Quote.time).length = S.tail.length := by
      rw [hmt]
    rw [List.length_map, List.length_tail, hSlen] at h1
    omega
  · intro t
    rw [hmt]
    cases hScases : S with
    | nil =>
      rw [hScases] at hSlen
      simp [maxQuotes] at hSlen
    | cons m rest =>
    rw [hScases] at hSsorted hSperm
    have hhead : ∀ x ∈ rest, m < x := (List.sorted_cons.mp hSsorted).1
    simp only [List.tail_cons]
    constructor
    · intro htr
      refine ⟨hSperm.mem_iff.mp (List.mem_cons.mpr (Or.inr htr)), m,
        hSperm.mem_iff.mp (List.mem_cons.mpr (Or.inl rfl)), hhead t htr⟩
    · rintro ⟨hts2, u, hu, hut⟩
      have htS : t ∈ m :: rest := hSperm.mem_iff.mpr hts2
      rcases List.mem_cons.mp htS with h | h
      · exfalso
        subst h
        have huS : u ∈ t :: rest := hSperm.mem_iff.mpr hu
        rcases List.mem_cons.mp huS with hcase | hcase
        · subst hcase
          exact lt_irrefl u hut
        · exact absurd (hhead u hcase) (by omega)
      · exact h

theorem bigGraph_times :
    bigGraph.map Quote.time
      = (List.range maxQuotes).map (fun i : Nat => (i : Int)) := by
  rw [bigGraph, List.map_map]
  congr 1

theorem bigGraph_sorted : List.Sorted (· < ·) (bigGraph.map Quote.time) := by
  rw [bigGraph_times]
  exact List.Pairwise.map _ (fun a b h => Int.ofNat_lt.mpr h)
    (List.sorted_lt_range maxQuotes)

theorem bigGraph_length : bigGraph.length = maxQuotes := by
  rw [bigGraph, List.length_map, List.length_range]

theorem bigGraph_inv : GraphInv bigGraph :=
  ⟨bigGraph_sorted, le_of_eq bigGraph_length⟩

theorem bigGraph_fresh :
    (Quote.mk 2000 0 0 0).time ∉ bigGraph.map Quote.time := by
  rw [bigGraph_times]
  intro hmem
  obtain ⟨i, hi, hEq⟩ := List.mem_map.mp hmem
  rw [List.mem_range] at hi
  have hEq2 : (i : Int) = 2000 := hEq
  have hi2000 : i = 2000 := by exact_mod_cast hEq2
  rw [maxQuotes] at hi
  omega

theorem bigQuotes_times :
    bigQuotes.map Quote.time
      = (List.range (maxQuotes + 1)).map (fun i : Nat => (i : Int)) := by
  rw [bigQuotes, List.map_map]
  congr 1

theorem bigQuotes_nodup : (bigQuotes.map Quote.time).Nodup := by
  rw [bigQuotes_times]
  exact (List.nodup_range _).map fun a b hab => by exact_mod_cast hab

theorem bigQuotes_length : bigQuotes.length = maxQuotes + 1 := by
  rw [bigQuotes, List.length_map, List.length_range]

theorem getAlarms_eq_none_of_not_mem {a : StockAlarm} {code : String}
    (h : code ∉ a.map Prod.fst) : getAlarms a code = none := by
  induction a with
  | nil => rfl
  | cons p rest ih =>
    obtain ⟨c', vs'⟩ := p
    simp only [List.map_cons, List.mem_cons, not_or] at h
    simp only [getAlarms]
    rw [if_neg fun hh => h.1 hh.symm]
    exact ih h.2

theorem getAlarms_setAlarm (a : StockAlarm) (c : String) (v : Int)
    (code : String) :
    getAlarms (setAlarm a c v) code =
      if code = c then some (insertSorted v ((getAlarms a c).getD []))
      else getAlarms a code := by
  induction a with
  | nil =>
    by_cases h : code = c
    · subst h
      simp [setAlarm, getAlarms, insertSorted]
    · have h' : ¬c = code := fun hh => h hh.symm
      simp [setAlarm, getAlarms, h, h']
  | cons p rest ih =>
    obtain ⟨c', vs⟩ := p
    by_cases h1 : c' = c
    · subst h1
      by_cases h2 : c' = code
      · subst h2
        simp [setAlarm, getAlarms]
      · have h2' : ¬code = c' := fun hh => h2 hh.symm
        simp [setAlarm, getAlarms, h2, h2']
    · by_cases h2 : c' = code
      · subst h2
        simp [setAlarm, getAlarms, h1]
      · simp [setAlarm, getAlarms, h1, h2, ih]

theorem applyAlarms_aux (ops : List (String × Int)) (a : StockAlarm)
    (ha : ∀ code vs, getAlarms a code = some vs → List.Sorted (· < ·) vs) :
    ∀ code vs,
      getAlarms (ops.foldl (fun x p => setAlarm x p.1 p.2) a) code = some vs →
      List.Sorted (· < ·) vs ∧
      ∀ v, v ∈ vs ↔
        ((code, v) ∈ ops ∨ ∃ vs0, getAlarms a code = some vs0 ∧ v ∈ vs0) := by
  induction ops generalizing a with
  | nil =>
    intro code vs h
    simp only [List.foldl_nil] at h
    refine ⟨ha code vs h, fun v => ?_⟩
    simp [h]
  | cons p ops' ih =>
    obtain ⟨c, w⟩ := p
    intro code vs h
    simp only [List.foldl_cons] at h
    have ha' : ∀ code vs, getAlarms (setAlarm a c w) code = some vs →
        List.Sorted (· < ·) vs := by
      intro code' vs' h'
      rw [getAlarms_setAlarm] at h'
      by_cases hc : code' = c
      · simp only [hc, if_pos] at h'
        cases h'
        cases hv : getAlarms a c with
        | none => simp only [hv, Option.getD_none]; simp [insertSorted]
        | some u =>
          simp only [hv, Option.getD_some]
          exact sorted_insertSorted w u (ha c u hv)
      · simp only [hc, if_false] at h'
        exact ha code' vs' h'
    obtain ⟨hsorted, hmem⟩ := ih (setAlarm a c w) ha' code vs h
    refine ⟨hsorted, fun v => ?_⟩
    rw [hmem v, getAlarms_setAlarm]
    by_cases hc : code = c
    · subst hc
      simp only [if_pos rfl]
      cases hv : getAlarms a code with
      | none =>
        simp [insertSorted, Prod.ext_iff]
        tauto
      | some u =>
        simp [mem_insertSorted, Prod.ext_iff]
        tauto
    · simp only [hc, if_false]
      simp [List.mem_cons, Prod.ext_iff, hc]

/-! # Claim theorems -/

/-- C1: the poller's alarm crossing check fires for a threshold `t`
exactly when `t` lies within the closed interval
`[min(prev_value, new_value), max(prev_value, new_value)]`; in particular
it fires when `prev_value = new_value = t` (touch counts) and does not
fire when `t` lies strictly outside the interval. -/
theorem alarm_crossing_interval (prev_value new_value t : Int) :
    (alarmCrossed prev_value t new_value = true ↔
      min prev_value new_value ≤ t ∧ t ≤ max prev_value new_value) ∧
    alarmCrossed t t t = true ∧
    (t < min prev_value new_value ∨ max prev_value new_value < t →
      alarmCrossed prev_value t new_value = false) := by
  refine ⟨?_, ?_, ?_⟩
  · simp only [alarmCrossed, decide_eq_true_eq, min_le_iff, le_max_iff,
      ge_iff_le]
    omega
  · simp [alarmCrossed]
  · intro h
    simp only [alarmCrossed, decide_eq_false_iff_not, ge_iff_le]
    simp only [min_le_iff, le_max_iff, lt_min_iff, max_lt_iff] at h ⊢
    omega

/-- Witness for C1 at the four concrete examples of the specification. -/
theorem alarm_crossing_interval_witness :
    alarmCrossed 100 105 110 = true ∧ alarmCrossed 110 105 100 = true ∧
    alarmCrossed 100 105 101 = false ∧ alarmCrossed 100 100 100 = true :=
  ⟨(alarm_crossing_interval 100 110 105).1.mpr (by decide),
   (alarm_crossing_interval 110 100 105).1.mpr (by decide),
   (alarm_crossing_interval 100 101 105).2.2 (by decide),
   (alarm_crossing_interval 100 100 100).2.1⟩

/-- C5: after every sequence of `set_alarm` calls on the empty registry,
every instrument's alarm vector is strictly sorted ascending and contains
a price exactly when it was set for that instrument (hence each distinct
price exactly once). -/
theorem set_alarm_sorted_unique (ops : List (String × Int)) (code : String)
    (vs : List Int) (h : getAlarms (applyAlarms ops) code = some vs) :
    List.Sorted (· < ·) vs ∧ ∀ v : Int, v ∈ vs ↔ (code, v) ∈ ops := by
  have h' : getAlarms (ops.foldl (fun x p => setAlarm x p.1 p.2) []) code
      = some vs := h
  obtain ⟨hs, hm⟩ := applyAlarms_aux ops []
    (fun c vs0 h0 => by simp [getAlarms] at h0) code vs h'
  refine ⟨hs, fun v => ?_⟩
  rw [hm v]
  simp [getAlarms]

/-- Witness for C5 on the call sequence
`set_alarm("A", 2); set_alarm("A", 1); set_alarm("A", 2)`. -/
theorem set_alarm_sorted_unique_witness :
    List.Sorted (· < ·) ([1, 2] : List Int) ∧
    ((1 : Int) ∈ ([1, 2] : List Int) ↔
      ("A", (1 : Int)) ∈ [("A", (2 : Int)), ("A", 1), ("A", 2)]) := by
  have h := set_alarm_sorted_unique [("A", 2), ("A", 1), ("A", 2)] "A"
    [1, 2] (by decide)
  exact ⟨h.1, h.2 1⟩

/-- C4: on a well-formed registry, `remove_alarm(code, price)` returns
true exactly when `price` is present in that code's threshold vector; in
that case it removes exactly that threshold, deleting the instrument's
entry entirely when it was the last one, and leaves every other
instrument untouched; when the price (or the code) is absent, it returns
false and the registry is unchanged. -/
theorem remove_alarm_spec (a : StockAlarm) (code : String) (v : Int)
    (hwf : AlarmWF a) :
    ((removeAlarm a code v).1 = true ↔
      ∃ vs, getAlarms a code = some vs ∧ v ∈ vs) ∧
    (∀ vs, getAlarms a code = some vs → v ∈ vs →
      getAlarms (removeAlarm a code v).2 code =
        (if vs.erase v = [] then none else some (vs.erase v)) ∧
      ∀ c, c ≠ code → getAlarms (removeAlarm a code v).2 c = getAlarms a c) ∧
    ((removeAlarm a code v).1 = false → (removeAlarm a code v).2 = a) := by
  revert hwf
  induction a with
  | nil =>
    intro _
    refine ⟨by simp [removeAlarm, getAlarms], ?_, by simp [removeAlarm]⟩
    intro vs hvs
    simp [getAlarms] at hvs
  | cons p rest ih =>
    intro hwf
    obtain ⟨c', vs'⟩ := p
    have hkeys : c' ∉ rest.map Prod.fst := by
      have := hwf.1
      simp only [List.map_cons, List.nodup_cons] at this
      exact this.1
    have hwfrest : AlarmWF rest := by
      constructor
      · have := hwf.1
        simp only [List.map_cons, List.nodup_cons] at this
        exact this.2
      · intro code0 vs0 h0
        by_cases hcc : c' = code0
        · rw [← hcc, getAlarms_eq_none_of_not_mem hkeys] at h0
          cases h0
        · exact hwf.2 code0 vs0 (by simp [getAlarms, hcc, h0])
    by_cases hc : c' = code
    · subst hc
      by_cases hm : v ∈ vs'
      · by_cases he : vs'.erase v = []
        · refine ⟨?_, ?_, ?_⟩
          · simp [removeAlarm, getAlarms, hm, he]
          · intro vs hvs hvm
            simp only [getAlarms, if_true, eq_self_iff_true, Option.some.injEq] at hvs
            subst hvs
            refine ⟨?_, ?_⟩
            · simp only [removeAlarm, if_true, eq_self_iff_true, hm,
                if_pos, he]
              rw [getAlarms_eq_none_of_not_mem hkeys]
            · intro c hne
              have hcc : ¬c' = c := fun hh => hne hh.symm
              simp [removeAlarm, hm, he, getAlarms, hcc]
          · simp [removeAlarm, hm, he]
        · refine ⟨?_, ?_, ?_⟩
          · simp [removeAlarm, getAlarms, hm, he]
          · intro vs hvs hvm
            simp only [getAlarms, if_true, eq_self_iff_true, Option.some.injEq] at hvs
            subst hvs
            refine ⟨?_, ?_⟩
            · simp [removeAlarm, hm, he, getAlarms]
            · intro c hne
              have hcc : ¬c' = c := fun hh => hne hh.symm
              simp [removeAlarm, hm, he, getAlarms, hcc]
          · simp [removeAlarm, hm, he]
      · refine ⟨?_, ?_, ?_⟩
        · simp [removeAlarm, getAlarms, hm]
        · intro vs hvs hvm
          simp only [getAlarms, if_true, eq_self_iff_true, Option.some.injEq] at hvs
          subst hvs
          exact absurd hvm hm
        · intro _
          simp [removeAlarm, hm]
    · obtain ⟨ih1, ih2, ih3⟩ := ih hwfrest
      refine ⟨?_, ?_, ?_⟩
      · rw [show (removeAlarm ((c', vs') :: rest) code v).1 =
            (removeAlarm rest code v).1 by simp [removeAlarm, hc]]
        rw [ih1]
        simp [getAlarms, hc]
      · intro vs hvs hvm
        have hvs' : getAlarms rest code = some vs := by
          simpa [getAlarms, hc] using hvs
        obtain ⟨ha1, ha2⟩ := ih2 vs hvs' hvm
        refine ⟨?_, ?_⟩
        · simpa [removeAlarm, hc, getAlarms] using ha1
        · intro c hne
          by_cases hcc : c' = c
          · subst hcc
            simp [removeAlarm, hc, getAlarms]
          · simpa [removeAlarm, hc, getAlarms, hcc] using ha2 c hne
      · intro hfalse
        have : (removeAlarm rest code v).1 = false := by
          simpa [removeAlarm, hc] using hfalse
        have h2 := ih3 this
        simp [removeAlarm, hc, h2]

/-- Witness for C4 on the registry `{"A" ↦ [1, 5]}` with price 5. -/
theorem remove_alarm_spec_witness :
    ((removeAlarm [("A", [1, 5])] "A" 5).1 = true) ∧
    (getAlarms (removeAlarm [("A", [1, 5])] "A" 5).2 "A" =
      (if ([1, 5] : List Int).erase 5 = [] then none
       else some (([1, 5] : List Int).erase 5))) := by
  have hwf : AlarmWF [("A", [1, 5])] := by
    constructor
    · simp
    · intro code vs h
      simp only [getAlarms] at h
      by_cases hc : "A" = code
      · rw [if_pos hc] at h
        cases h
        decide
      · rw [if_neg hc] at h
        cases h
  have h := remove_alarm_spec [("A", [1, 5])] "A" 5 hwf
  exact ⟨h.1.mpr ⟨[1, 5], by decide, by decide⟩,
    (h.2.1 [1, 5] (by decide) (by decide)).1⟩

theorem getShare_addOrUpdateStock_mem (m : Market) (code : String)
    (st : Stock) (sh : Share) (h : Market.getShare m code = some sh) :
    Market.getShare (Market.addOrUpdateStock m code st) code =
      some ⟨sh.kind, st.name, st.state, st.now_value, st.changeValue,
        st.changeRate, st.trading_volume, sh.graph⟩ := by
  induction m with
  | nil => simp [Market.getShare] at h
  | cons p rest ih =>
    obtain ⟨c0, sh0⟩ := p
    by_cases h0 : c0 = code
    · simp only [Market.getShare, if_pos h0, Option.some.injEq] at h
      subst h
      simp [Market.addOrUpdateStock, Market.getShare, h0]
    · simp only [Market.getShare, if_neg h0] at h
      simp [Market.addOrUpdateStock, Market.getShare, h0, ih h]

theorem getShare_addOrUpdateStock_none (m : Market) (code : String)
    (st : Stock) (h : Market.getShare m code = none) :
    Market.getShare (Market.addOrUpdateStock m code st) code =
      some ⟨ShareKind.Stock, st.name, st.state, st.now_value,
        st.changeValue, st.changeRate, st.trading_volume, []⟩ := by
  induction m with
  | nil => simp [Market.addOrUpdateStock, Market.getShare]
  | cons p rest ih =>
    obtain ⟨c0, sh0⟩ := p
    by_cases h0 : c0 = code
    · simp [Market.getShare, if_pos h0] at h
    · simp only [Market.getShare, if_neg h0] at h
      simp [Market.addOrUpdateStock, Market.getShare, h0, ih h]

theorem getShare_addOrUpdateStock_ne (m : Market) (code : String)
    (st : Stock) (c : String) (hc : c ≠ code) :
    Market.getShare (Market.addOrUpdateStock m code st) c =
      Market.getShare m c := by
  induction m with
  | nil =>
    have : ¬code = c := fun hh => hc hh.symm
    simp [Market.addOrUpdateStock, Market.getShare, this]
  | cons p rest ih =>
    obtain ⟨c0, sh0⟩ := p
    by_cases h0 : c0 = code
    · subst h0
      have hcode : ¬c0 = c := fun hh => hc hh.symm
      simp [Market.addOrUpdateStock, Market.getShare, hcode]
    · by_cases h1 : c0 = c
      · simp [Market.addOrUpdateStock, Market.getShare, h0, h1, hc]
      · simp [Market.addOrUpdateStock, Market.getShare, h0, h1, hc, ih]

theorem getShare_addOrUpdateIndex_mem (m : Market) (code : String)
    (ix : Index) (sh : Share) (h : Market.getShare m code = some sh) :
    Market.getShare (Market.addOrUpdateIndex m code ix) code =
      some ⟨sh.kind, code, ix.state, ix.now_value, ix.change_value,
        ix.change_rate, ix.trading_volume, sh.graph⟩ := by
  induction m with
  | nil => simp [Market.getShare] at h
  | cons p rest ih =>
    obtain ⟨c0, sh0⟩ := p
    by_cases h0 : c0 = code
    · simp only [Market.getShare, if_pos h0, Option.some.injEq] at h
      subst h
      simp [Market.addOrUpdateIndex, Market.getShare, h0]
    · simp only [Market.getShare, if_neg h0] at h
      simp [Market.addOrUpdateIndex, Market.getShare, h0, ih h]

theorem getShare_addOrUpdateIndex_none (m : Market) (code : String)
    (ix : Index) (h : Market.getShare m code = none) :
    Market.getShare (Market.addOrUpdateIndex m code ix) code =
      some ⟨ShareKind.Index, code, ix.state, ix.now_value, ix.change_value,
        ix.change_rate, ix.trading_volume, []⟩ := by
  induction m with
  | nil => simp [Market.addOrUpdateIndex, Market.getShare]
  | cons p rest ih =>
    obtain ⟨c0, sh0⟩ := p
    by_cases h0 : c0 = code
    · simp [Market.getShare, if_pos h0] at h
    · simp only [Market.getShare, if_neg h0] at h
      simp [Market.addOrUpdateIndex, Market.getShare, h0, ih h]

theorem getShare_addOrUpdateIndex_ne (m : Market) (code : String)
    (ix : Index) (c : String) (hc : c ≠ code) :
    Market.getShare (Market.addOrUpdateIndex m code ix) c =
      Market.getShare m c := by
  induction m with
  | nil =>
    have : ¬code = c := fun hh => hc hh.symm
    simp [Market.addOrUpdateIndex, Market.getShare, this]
  | cons p rest ih =>
    obtain ⟨c0, sh0⟩ := p
    by_cases h0 : c0 = code
    · subst h0
      have hcode : ¬c0 = c := fun hh => hc hh.symm
      simp [Market.addOrUpdateIndex, Market.getShare, hcode]
    · by_cases h1 : c0 = c
      · simp [Market.addOrUpdateIndex, Market.getShare, h0, h1, hc]
      · simp [Market.addOrUpdateIndex, Market.getShare, h0, h1, hc, ih]

/-- C7: `add_or_update_stock` / `add_or_update_index` overwrite every
snapshot field of an existing entry wholesale (for an index the name is
set to the code) while leaving its kind and its Graph unchanged; for a
new code they create the entry with a fresh empty Graph; entries of
other codes are untouched in all cases. -/
theorem add_or_update_wholesale (m : Market) (code : String) (st : Stock)
    (ix : Index) :
    (∀ sh, Market.getShare m code = some sh →
      Market.getShare (Market.addOrUpdateStock m code st) code =
        some ⟨sh.kind, st.name, st.state, st.now_value, st.changeValue,
          st.changeRate, st.trading_volume, sh.graph⟩) ∧
    (Market.getShare m code = none →
      Market.getShare (Market.addOrUpdateStock m code st) code =
        some ⟨ShareKind.Stock, st.name, st.state, st.now_value,
          st.changeValue, st.changeRate, st.trading_volume, []⟩) ∧
    (∀ c, c ≠ code →
      Market.getShare (Market.addOrUpdateStock m code st) c =
        Market.getShare m c) ∧
    (∀ sh, Market.getShare m code = some sh →
      Market.getShare (Market.addOrUpdateIndex m code ix) code =
        some ⟨sh.kind, code, ix.state, ix.now_value, ix.change_value,
          ix.change_rate, ix.trading_volume, sh.graph⟩) ∧
    (Market.getShare m code = none →
      Market.getShare (Market.addOrUpdateIndex m code ix) code =
        some ⟨ShareKind.Index, code, ix.state, ix.now_value,
          ix.change_value, ix.change_rate, ix.trading_volume, []⟩) ∧
    (∀ c, c ≠ code →
      Market.getShare (Market.addOrUpdateIndex m code ix) c =
        Market.getShare m c) :=
  ⟨fun sh h => getShare_addOrUpdateStock_mem m code st sh h,
   fun h => getShare_addOrUpdateStock_none m code st h,
   fun c hc => getShare_addOrUpdateStock_ne m code st c hc,
   fun sh h => getShare_addOrUpdateIndex_mem m code ix sh h,
   fun h => getShare_addOrUpdateIndex_none m code ix h,
   fun c hc => getShare_addOrUpdateIndex_ne m code ix c hc⟩

/-- Witness for C7 on the one-entry registry `{"A" ↦ sampleShare}`. -/
theorem add_or_update_wholesale_witness :
    (Market.getShare
        (Market.addOrUpdateStock [("A", sampleShare)] "A" sampleStock) "A" =
      some ⟨sampleShare.kind, sampleStock.name, sampleStock.state,
        sampleStock.now_value, sampleStock.changeValue,
        sampleStock.changeRate, sampleStock.trading_volume,
        sampleShare.graph⟩) ∧
    (Market.getShare
        (Market.addOrUpdateIndex [("A", sampleShare)] "B" sampleIndex) "B" =
      some ⟨ShareKind.Index, "B", sampleIndex.state, sampleIndex.now_value,
        sampleIndex.change_value, sampleIndex.change_rate,
        sampleIndex.trading_volume, []⟩) ∧
    (Market.getShare
        (Market.addOrUpdateStock [("A", sampleShare)] "B" sampleStock) "A" =
      Market.getShare [("A", sampleShare)] "A") :=
  ⟨(add_or_update_wholesale [("A", sampleShare)] "A" sampleStock
      sampleIndex).1 sampleShare (by simp [Market.getShare]),
   (add_or_update_wholesale [("A", sampleShare)] "B" sampleStock
      sampleIndex).2.2.2.2.1 (by simp [Market.getShare]),
   (add_or_update_wholesale [("A", sampleShare)] "B" sampleStock
      sampleIndex).2.2.1 "A" (by simp)⟩

/-- C3 counterexample: with `range = 1.0`, in the Open state with band
upper bound `U = 2.0`, observing `change_rate = 2.5` recenters `U` to
`4.0` (since `(2.5).round() = 3` away from zero and one `range` is
added), not to `3.0` as the claim states. -/
theorem rate_breakout_counterexample :
    (rateStep ⟨some MarketState.Open, some 2⟩ MarketState.Open
        (5 / 2)).2.rate_limit = some 4 ∧
    (rateStep ⟨some MarketState.Open, some 2⟩ MarketState.Open
        (5 / 2)).2.rate_limit ≠ some 3 := by
  have h : (rateStep ⟨some MarketState.Open, some 2⟩ MarketState.Open
      (5 / 2)).2.rate_limit = some 4 := by
    simp only [rateStep, limitRange, eps, roundRat]
    norm_num
  refine ⟨h, ?_⟩
  rw [h]
  intro hcontra
  have : (4 : ℚ) = 3 := Option.some.inj hcontra
  norm_num at this

/-- C3 (amended): with `range = 1.0`, for an Open instrument whose band
upper bound is `U = 2.0`, observing `change_rate = 2.5` fires a breakout
notification and recenters `U` to `4.0`; a subsequent observation of
`change_rate = 2.6` in the same session does not refire and leaves `U`
at `4.0`. -/
theorem rate_breakout_amended :
    (rateStep ⟨some MarketState.Open, some 2⟩ MarketState.Open
        (5 / 2)).1 = true ∧
    (rateStep ⟨some MarketState.Open, some 2⟩ MarketState.Open
        (5 / 2)).2.rate_limit = some 4 ∧
    (rateStep ⟨some MarketState.Open, some 4⟩ MarketState.Open
        (13 / 5)).1 = false ∧
    (rateStep ⟨some MarketState.Open, some 4⟩ MarketState.Open
        (13 / 5)).2.rate_limit = some 4 ∧
    (rateStep ⟨some MarketState.Open, some 2⟩ MarketState.Open
        (5 / 2)).2.prev_state = some MarketState.Open := by
  refine ⟨?_, ?_, ?_, ?_, ?_⟩ <;>
    simp only [rateStep, limitRange, eps, roundRat] <;> norm_num

/-- C8: the volume-spike detector notifies only when the current volume
delta exceeds the absolute floor 3000 and five times the trailing
baseline; with a previous notification on record it never refires at the
same latest tick timestamp, and at a new timestamp it refires only when
the new spike scale exceeds the notified one or at least 10 minutes have
elapsed since the notified tick. -/
theorem vol_spike_necessary (prevN : Option (Int × ℚ))
    (state : MarketState) (g : List Quote) :
    ((volStep prevN state g).1 = true →
      ∃ currMove avgMove, avgTradingVolMove g 0 1 = some currMove ∧
        avgTradingVolMove g 1 20 = some avgMove ∧
        currMove > 3000 ∧ currMove > avgMove * 5) ∧
    (∀ t s, prevN = some (t, s) → latestTime g = some t →
      (volStep prevN state g).1 = false) ∧
    (∀ t s time, prevN = some (t, s) → latestTime g = some time →
      (volStep prevN state g).1 = true →
      ∃ currMove avgMove, avgTradingVolMove g 0 1 = some currMove ∧
        avgTradingVolMove g 1 20 = some avgMove ∧
        (currMove / avgMove > s ∨ time - t ≥ 10)) := by
  refine ⟨?_, ?_, ?_⟩
  · intro hfire
    by_cases hst : state = MarketState.Open
    case neg => simp [volStep, hst] at hfire
    subst hst
    cases hlt : latestTime g with
    | none => simp [volStep, hlt] at hfire
    | some time =>
    cases hcm : avgTradingVolMove g 0 1 with
    | none => simp [volStep, hlt, hcm] at hfire
    | some currMove =>
    cases ham : avgTradingVolMove g 1 20 with
    | none => simp [volStep, hlt, hcm, ham] at hfire
    | some avgMove =>
    refine ⟨currMove, avgMove, rfl, rfl, ?_⟩
    by_cases hcond : currMove > 3000 ∧ currMove > avgMove * 5
    · exact hcond
    · simp [volStep, hlt, hcm, ham, hcond] at hfire
  · intro t s hprev hlatest
    subst hprev
    by_cases hst : state = MarketState.Open
    case neg => simp [volStep, hst]
    subst hst
    cases hcm : avgTradingVolMove g 0 1 with
    | none => simp [volStep, hlatest, hcm]
    | some currMove =>
    cases ham : avgTradingVolMove g 1 20 with
    | none => simp [volStep, hlatest, hcm, ham]
    | some avgMove =>
    by_cases hcond : currMove > 3000 ∧ currMove > avgMove * 5
    · simp [volStep, hlatest, hcm, ham, hcond]
    · simp [volStep, hlatest, hcm, ham, hcond]
  · intro t s time hprev hlatest hfire
    subst hprev
    by_cases hst : state = MarketState.Open
    case neg => simp [volStep, hst] at hfire
    subst hst
    cases hcm : avgTradingVolMove g 0 1 with
    | none => simp [volStep, hlatest, hcm] at hfire
    | some currMove =>
    cases ham : avgTradingVolMove g 1 20 with
    | none => simp [volStep, hlatest, hcm, ham] at hfire
    | some avgMove =>
    refine ⟨currMove, avgMove, rfl, rfl, ?_⟩
    by_cases hnew : currMove / avgMove > s ∨ time - t > 10
    · rcases hnew with h | h
      · exact Or.inl h
      · exact Or.inr (by omega)
    · by_cases hcond : currMove > 3000 ∧ currMove > avgMove * 5
      · push_neg at hnew
        have h1 : ¬(s < currMove / avgMove) := not_lt.mpr hnew.1
        have h2 : ¬(10 < time - t) := not_lt.mpr hnew.2
        simp [volStep, hlatest, hcm, ham, hcond, h1, h2] at hfire
      · simp [volStep, hlatest, hcm, ham, hcond] at hfire

/-- C6: for `count ≥ 1`, `average_volume_delta(offset, count)` is none
exactly when the graph holds fewer than `offset + count` ticks, and
otherwise is the arithmetic mean of `volume_delta` over the `count` ticks
starting `offset` positions back from the most recent tick (offset 0 =
most recent), i.e. the slice `g.drop (len - offset - cnt) |>.take cnt`. -/
theorem avg_volume_delta_spec (g : List Quote) (offset cnt : Nat)
    (hc : 1 ≤ cnt) :
    (avgTradingVolMove g offset cnt = none ↔ g.length < offset + cnt) ∧
    (offset + cnt ≤ g.length →
      avgTradingVolMove g offset cnt =
        some ((((((g.drop (g.length - offset - cnt)).take cnt).map
          Quote.trading_vol_move).sum : Int) : ℚ) / (cnt : ℚ))) := by
  by_cases hlen : g.length < offset + cnt
  · have hnone : avgTradingVolMove g offset cnt = none := by
      rw [avgTradingVolMove, if_pos (Or.inr hlen)]
    constructor
    · simp [hnone, hlen]
    · intro hge
      omega
  · push_neg at hlen
    have hcond : ¬(cnt = 0 ∨ g.length < offset + cnt) := by omega
    constructor
    · rw [avgTradingVolMove, if_neg hcond]
      have : ¬g.length < offset + cnt := by omega
      simp [this]
    · intro _
      rw [avgTradingVolMove, if_neg hcond]
      have hlt : (g.take (g.length - offset)).length = g.length - offset := by
        rw [List.length_take]
        omega
      have hw : (g.reverse.drop offset).take cnt =
          ((g.drop (g.length - offset - cnt)).take cnt).reverse := by
        calc (g.reverse.drop offset).take cnt
            = ((g.take (g.length - offset)).reverse).take cnt := by
              rw [List.drop_reverse]
          _ = ((g.take (g.length - offset)).drop
                ((g.take (g.length - offset)).length - cnt)).reverse := by
              rw [List.take_reverse]
          _ = ((g.take (g.length - offset)).drop
                (g.length - offset - cnt)).reverse := by rw [hlt]
          _ = ((g.drop (g.length - offset - cnt)).take
                ((g.length - offset) - (g.length - offset - cnt))).reverse := by
              rw [List.drop_take]
          _ = ((g.drop (g.length - offset - cnt)).take cnt).reverse := by
              have harith : (g.length - offset) - (g.length - offset - cnt)
                  = cnt := by omega
              rw [harith]
      rw [hw, List.map_reverse, List.sum_reverse]

/-- Witness for C6 on `demoGraph` with `offset = 1`, `count = 2`. -/
theorem avg_volume_delta_spec_witness :
    (avgTradingVolMove demoGraph 1 2 = none ↔ demoGraph.length < 1 + 2) ∧
    (avgTradingVolMove demoGraph 1 2 =
      some ((((((demoGraph.drop (demoGraph.length - 1 - 2)).take 2).map
        Quote.trading_vol_move).sum : Int) : ℚ) / ((2 : Nat) : ℚ))) := by
  have h := avg_volume_delta_spec demoGraph 1 2 (by decide)
  exact ⟨h.1, h.2 (by decide)⟩

/-- Witness for C8 on `spikeGraph`: the detector fires on first
observation, and with a previous notification at the same latest
timestamp it stays silent. -/
theorem vol_spike_necessary_witness :
    (∃ currMove avgMove,
      avgTradingVolMove spikeGraph 0 1 = some currMove ∧
      avgTradingVolMove spikeGraph 1 20 = some avgMove ∧
      currMove > 3000 ∧ currMove > avgMove * 5) ∧
    (volStep (some (21, 5)) MarketState.Open spikeGraph).1 = false := by
  have hc1 : ¬((1 : Nat) = 0 ∨ spikeGraph.length < 0 + 1) := by decide
  have hs1 : (((spikeGraph.reverse.drop 0).take 1).map
      Quote.trading_vol_move).sum = (4000 : Int) := by decide
  have h2 : avgTradingVolMove spikeGraph 0 1 = some 4000 := by
    unfold avgTradingVolMove
    rw [if_neg hc1, hs1]
    norm_num
  have hc2 : ¬((20 : Nat) = 0 ∨ spikeGraph.length < 1 + 20) := by decide
  have hs2 : (((spikeGraph.reverse.drop 1).take 20).map
      Quote.trading_vol_move).sum = (20 : Int) := by decide
  have h3 : avgTradingVolMove spikeGraph 1 20 = some 1 := by
    unfold avgTradingVolMove
    rw [if_neg hc2, hs2]
    norm_num
  have h1 : latestTime spikeGraph = some 21 := by decide
  have hfire : (volStep none MarketState.Open spikeGraph).1 = true := by
    norm_num [volStep, h1, h2, h3]
  exact ⟨(vol_spike_necessary none MarketState.Open spikeGraph).1 hfire,
    (vol_spike_necessary (some (21, 5)) MarketState.Open spikeGraph).2.1
      21 5 rfl h1⟩

/-- C9: `format_value(4321, 0) = "4,321"`,
`format_value(-100, 2) = "-1.00"` and `format_value(0, 1) = "0.0"`. -/
theorem format_value_examples :
    formatValue 4321 0 = "4,321" ∧ formatValue (-100) 2 = "-1.00" ∧
    formatValue 0 1 = "0.0" := by
  refine ⟨?_, ?_, ?_⟩ <;> decide

/-- C10: for every negative value the integer part receives no thousands
separators (the comma-insertion check never fires once the accumulated
string starts with the minus sign); in particular
`format_value(-1234567, 0) = "-1234567"`. -/
theorem format_value_negative_no_grouping :
    (∀ val radix : Int, val < 0 → ',' ∉ (formatValue val radix).data) ∧
    formatValue (-1234567) 0 = "-1234567" := by
  constructor
  · intro val radix hneg
    obtain ⟨hdl, hdh⟩ := digitsLoop_no_comma 18
      (baseLoop (-val / 10 ^ radix.toNat).toNat 19 (10 ^ 18) 0).1
      (-val / 10 ^ radix.toNat).toNat
      (baseLoop (-val / 10 ^ radix.toNat).toNat 19 (10 ^ 18) 0).2
      ['-'] rfl (by decide)
    simp only [formatValue, if_pos hneg]
    by_cases hr : 0 < radix
    · rw [if_pos hr]
      intro hmem
      simp only [List.append_assoc, List.mem_append, List.mem_singleton,
        List.mem_replicate] at hmem
      rcases hmem with h | h | h | h | h
      · exact hdl h
      · exact char_ofNat_digit_ne_comma _ h.symm
      · cases h
      · cases h.2
      · exact natDigitsAux_no_comma _ _ h
    · rw [if_neg hr]
      intro hmem
      simp only [List.mem_append, List.mem_singleton] at hmem
      rcases hmem with h | h
      · exact hdl h
      · exact char_ofNat_digit_ne_comma _ h.symm
  · decide

/-- Witness for C10 at `val = -100`, `radix = 2`. -/
theorem format_value_negative_no_grouping_witness :
    ',' ∉ (formatValue (-100) 2).data :=
  format_value_negative_no_grouping.1 (-100) 2 (by decide)

/-- C2: starting from the empty graph, any sequence of `Graph::update`
calls in arbitrary time order keeps the quote list strictly ascending by
time (hence without duplicate timestamps) and of length at most 1024
(`maxQuotes`); re-upserting an existing timestamp replaces that tick in
place without changing the stored timestamps or the length; a fresh
timestamp arriving at capacity evicts the front (oldest) entry; and
upserting `maxQuotes + 1` distinct timestamps retains exactly the 1024
most recent ones (every timestamp except the unique minimum). -/
theorem graph_update_spec :
    (∀ qs : List Quote, GraphInv (updateAll qs)) ∧
    (∀ (g : List Quote) (q : Quote), GraphInv g →
      q.time ∈ g.map Quote.time →
      (Graph.update g q).map Quote.time = g.map Quote.time ∧
      (Graph.update g q).length = g.length ∧ q ∈ Graph.update g q) ∧
    (∀ (g : List Quote) (q : Quote), GraphInv g →
      q.time ∉ g.map Quote.time → g.length = maxQuotes →
      Graph.update g q = (graphInsert q g).tail ∧
      (Graph.update g q).length = maxQuotes) ∧
    (∀ qs : List Quote, (qs.map Quote.time).Nodup →
      qs.length = maxQuotes + 1 →
      (updateAll qs).length = maxQuotes ∧
      ∀ t : Int, t ∈ (updateAll qs).map Quote.time ↔
        (t ∈ qs.map Quote.time ∧ ∃ u ∈ qs.map Quote.time, u < t)) := by
  refine ⟨?_, ?_, ?_,
    fun qs hnd hlen => update_overflow_keeps_recent qs hnd hlen⟩
  · intro qs
    apply graphInv_foldl
    constructor
    · exact List.sorted_nil
    · simp [maxQuotes]
  · intro g q hInv hm
    have hmap : (graphInsert q g).map Quote.time = g.map Quote.time :=
      map_time_graphInsert_mem q g hInv.1 hm
    have hlen : (graphInsert q g).length = g.length := by
      have := congrArg List.length hmap
      rwa [List.length_map, List.length_map] at this
    have hupd : Graph.update g q = graphInsert q g :=
      update_eq_of_le g q (by have := hInv.2; omega)
    refine ⟨?_, ?_, ?_⟩
    · rw [hupd, hmap]
    · rw [hupd, hlen]
    · rw [hupd]
      exact self_mem_graphInsert q g
  · intro g q hInv hm hfull
    have hlen : (graphInsert q g).length = g.length + 1 :=
      length_graphInsert_fresh q g hm
    have hupd : Graph.update g q = (graphInsert q g).tail :=
      update_eq_of_gt g q (by omega)
    refine ⟨hupd, ?_⟩
    rw [hupd, List.length_tail, hlen, hfull]
    omega

/-- Witness for C2: a singleton sequence, an in-place replacement, an
eviction on the full `bigGraph`, and the `maxQuotes + 1` distinct
upserts of `bigQuotes`. -/
theorem graph_update_spec_witness :
    GraphInv (updateAll [Quote.mk 5 1 2 3]) ∧
    ((Graph.update [Quote.mk 5 1 2 3] (Quote.mk 5 9 9 9)).map Quote.time
      = [Quote.mk 5 1 2 3].map Quote.time) ∧
    (Graph.update bigGraph (Quote.mk 2000 0 0 0)
      = (graphInsert (Quote.mk 2000 0 0 0) bigGraph).tail) ∧
    (updateAll bigQuotes).length = maxQuotes :=
  ⟨graph_update_spec.1 [Quote.mk 5 1 2 3],
   (graph_update_spec.2.1 [Quote.mk 5 1 2 3] (Quote.mk 5 9 9 9)
      (by constructor <;> decide) (by decide)).1,
   (graph_update_spec.2.2.1 bigGraph (Quote.mk 2000 0 0 0)
      bigGraph_inv bigGraph_fresh bigGraph_length).1,
   (graph_update_spec.2.2.2 bigQuotes bigQuotes_nodup bigQuotes_length).1⟩

end Stocking
